import Mathlib

/-!
Verification of the schema relationship resolver of a text-to-SQL
application (`app.py`).  The development embeds, as executable Lean
definitions, the `TableKnowledgeGraph` class: graph construction from
relationship seed data (`_build_graph`), context-aware join resolution
(`get_join_relationships`), connecting-table discovery
(`get_all_tables_needed` on top of NetworkX shortest paths), and the
stage-1 LLM response parsing of `TextToSQLPipeline.identify_tables`.
Theorems at the end settle the specification claims against these
definitions.
-/

namespace TextToSql

/-- Substring test on character lists: `needle` occurs contiguously in the
list.  Mirrors Python's `needle in hay` for strings. -/
def infixOf (needle : List Char) : List Char → Bool
  | [] => needle.isEmpty
  | x :: xs => needle.isPrefixOf (x :: xs) || infixOf needle xs

/-- Python's `needle in hay` on strings. -/
def strContains (hay needle : String) : Bool :=
  infixOf needle.data hay.data

/-- Python's `str.lower()` (the inputs at hand are ASCII). -/
def py_lower (s : String) : String :=
  ⟨s.data.map Char.toLower⟩

/-- Drop leading whitespace. -/
def stripLeft : List Char → List Char
  | [] => []
  | c :: cs => if c.isWhitespace then stripLeft cs else c :: cs

/-- Python's `str.strip()`: whitespace removed from both ends. -/
def py_strip (s : String) : String :=
  ⟨stripLeft ((stripLeft s.data.reverse).reverse)⟩

/-- Python's `str.startswith(pre)`. -/
def py_startswith (s pre : String) : Bool :=
  pre.data.isPrefixOf s.data

/-- Python's `str.endswith(suf)`. -/
def py_endswith (s suf : String) : Bool :=
  suf.data.isSuffixOf s.data

/-- Split a character list at every occurrence of `sep`. -/
def splitChar (sep : Char) : List Char → List (List Char)
  | [] => [[]]
  | c :: cs =>
    if c = sep then [] :: splitChar sep cs
    else
      match splitChar sep cs with
      | [] => [[c]]
      | w :: ws => (c :: w) :: ws

/-- Python's `str.split(sep)` for a one-character separator. -/
def py_split_char (sep : Char) (s : String) : List String :=
  (splitChar sep s.data).map (fun cs => ⟨cs⟩)

/-- A column descriptor of a table schema (`name`, `description`,
`example` from the Excel rows). -/
structure Column where
  name : String
  description : String
  exampleValue : String
deriving DecidableEq

/-- One edge of the `nx.MultiDiGraph`: the attributes attached by
`add_edge` in `_build_graph`. -/
structure Edge where
  src : String
  dst : String
  source_columns : List String
  target_columns : List String
  join_type : String
  context : String
  description : String
deriving DecidableEq

/-- The multigraph state: node list and edge list, both in insertion
order (NetworkX preserves insertion order of nodes and of parallel
edges). -/
structure Graph where
  nodes : List String
  edges : List Edge
deriving DecidableEq

/-- One relationship seed record (a row of the `Joins` sheet as built by
`load_excel_data`): `join_type`, `context`, `description` may be absent,
in which case `_build_graph` applies defaults via `rel.get`. -/
structure Relationship where
  table1 : String
  table2 : String
  join_key_1 : String
  join_key_2 : String
  join_type : Option String
  context : Option String
  description : Option String
deriving DecidableEq

/-- `[col.strip() for col in key.split('+')]`. -/
def parse_key (key : String) : List String :=
  (py_split_char '+' key).map py_strip

/-- The edge `_build_graph` records for one relationship: composite keys
parsed by splitting on `+` and trimming, defaults applied for the
optional attributes.  No validation of the two lists' lengths occurs. -/
def mkEdge (rel : Relationship) : Edge :=
  { src := rel.table1
    dst := rel.table2
    source_columns := parse_key rel.join_key_1
    target_columns := parse_key rel.join_key_2
    join_type := rel.join_type.getD "INNER"
    context := rel.context.getD "default"
    description := rel.description.getD ("Join " ++ rel.table1 ++ " with " ++ rel.table2) }

/-- Append a node if not already present (NetworkX `add_node` /
the implicit node creation of `add_edge`). -/
def addNode (ns : List String) (x : String) : List String :=
  if x ∈ ns then ns else ns ++ [x]

/-- `TableKnowledgeGraph._build_graph`: nodes from the schema keys, then
one directed edge per relationship (endpoints auto-registered as
nodes). -/
def build_graph (schemas : List (String × List Column)) (rels : List Relationship) :
    Graph :=
  let ns := schemas.foldl (fun acc p => addNode acc p.1) []
  let ns := rels.foldl (fun acc r => addNode (addNode acc r.table1) r.table2) ns
  { nodes := ns, edges := rels.map mkEdge }

/-- `self.graph.get_edge_data(start, end)`: all parallel edges recorded
in the direction `a → b`, in insertion order. -/
def edgesBetween (g : Graph) (a b : String) : List Edge :=
  g.edges.filter (fun e => e.src == a && e.dst == b)

/-- `self.graph.has_edge(start, end)`. -/
def has_edge (g : Graph) (a b : String) : Bool :=
  !(edgesBetween g a b).isEmpty

/-- The context filter applied to one edge inside
`get_join_relationships`.  `edges_dict` is the set of parallel edges of
the same declared direction (the dict returned by `get_edge_data`), over
which the `has_context_specific_edges` fallback test ranges.  `none` (or
the falsy empty string) means no filtering. -/
def include_edge (ctx : Option String) (edges_dict : List Edge) (e : Edge) : Bool :=
  match ctx with
  | none => true
  | some c =>
    if c = "" then true
    else
      let cl := py_lower c
      let has_context_match := strContains (py_lower e.context) cl
      let is_def := e.context == "default"
      let has_context_specific_edges := edges_dict.any (fun ed =>
        ed.context != "default" && strContains (py_lower ed.context) cl)
      has_context_match || (is_def && !has_context_specific_edges)

/-- One record of the returned relationship list. -/
structure JoinRecord where
  from_table : String
  to_table : String
  join_condition : String
  join_type : String
  context : String
  description : String
deriving DecidableEq

/-- The per-column equalities `"{start}.{src} = {stop}.{tgt}"` built by
the list comprehension over `zip(source_cols, target_cols)`. -/
def render_equalities (start stop : String) (e : Edge) : List String :=
  (e.source_columns.zip e.target_columns).map
    (fun p => start ++ "." ++ p.1 ++ " = " ++ stop ++ "." ++ p.2)

/-- The dictionary appended to `relationships` for one included edge. -/
def render_record (start stop : String) (e : Edge) : JoinRecord :=
  { from_table := start
    to_table := stop
    join_condition := String.intercalate " AND " (render_equalities start stop e)
    join_type := e.join_type
    context := e.context
    description := e.description }

/-- The body of the `for start, end in [(source, target), (target, source)]`
loop for one direction: guard on `has_edge`, filter every parallel edge
by context, render each survivor. -/
def records_for_direction (g : Graph) (ctx : Option String) (start stop : String) :
    List JoinRecord :=
  if has_edge g start stop then
    let edges_dict := edgesBetween g start stop
    (edges_dict.filter (include_edge ctx edges_dict)).map (render_record start stop)
  else []

/-- The ordered pairs `(tables[i], tables[j])` for `i < j` produced by the
nested index loops. -/
def pairsOf : List String → List (String × String)
  | [] => []
  | x :: xs => xs.map (fun y => (x, y)) ++ pairsOf xs

/-- `TableKnowledgeGraph.get_join_relationships`. -/
def get_join_relationships (g : Graph) (tables : List String) (ctx : Option String) :
    List JoinRecord :=
  (pairsOf tables).flatMap (fun p =>
    records_for_direction g ctx p.1 p.2 ++ records_for_direction g ctx p.2 p.1)

/-! ## Undirected reachability and shortest paths

`get_all_tables_needed` calls `nx.shortest_path(self.graph.to_undirected(),
a, b)`: an unweighted breadth-first search on the undirected view of the
multigraph, raising `NodeNotFound` when an endpoint is not a node and
`NetworkXNoPath` when the endpoints are disconnected.  We embed it as a
bounded layerwise search that provably returns a minimum-edge-count walk. -/

/-- Undirected adjacency of the multigraph (`to_undirected`). -/
def Adj (g : Graph) (x y : String) : Prop :=
  ∃ e ∈ g.edges, (e.src = x ∧ e.dst = y) ∨ (e.src = y ∧ e.dst = x)

/-- The undirected neighbours of `x`, with multiplicity, read off the edge
list. -/
def nbrs (g : Graph) (x : String) : List String :=
  g.edges.flatMap (fun e =>
    (if e.src = x then [e.dst] else []) ++ (if e.dst = x then [e.src] else []))

/-- `p` is a walk from `a` to `b` in the undirected view: nonempty,
consecutive nodes adjacent, endpoints as given. -/
def IsWalk (g : Graph) (a b : String) (p : List String) : Prop :=
  p.Chain' (Adj g) ∧ p.head? = some a ∧ p.getLast? = some b

/-- `a` and `b` lie in the same undirected component. -/
def ReachableU (g : Graph) (a b : String) : Prop :=
  ∃ p, IsWalk g a b p

/-- `p` is a walk from `a` to `b` of minimum length (edge count). -/
def IsShortestWalk (g : Graph) (a b : String) (p : List String) : Prop :=
  IsWalk g a b p ∧ ∀ q, IsWalk g a b q → p.length ≤ q.length

/-- All walks that start at `a` and use exactly `n` edges, each stored in
reverse (current endpoint first, `a` last). -/
def walksR (g : Graph) (a : String) : Nat → List (List String)
  | 0 => [[a]]
  | n + 1 => (walksR g a n).flatMap (fun p =>
      match p with
      | [] => []
      | x :: _ => (nbrs g x).map (fun y => y :: p))

/-- The first reversed walk of exactly `n` edges that ends (in forward
orientation) at `b`. -/
def found_at (g : Graph) (a b : String) (n : Nat) : Option (List String) :=
  (walksR g a n).find? (fun p => p.head? == some b)

/-- Try edge counts `0, 1, …, n-1` in order, returning the first hit. -/
def search_up_to (g : Graph) (a b : String) : Nat → Option (List String)
  | 0 => none
  | n + 1 =>
    match search_up_to g a b n with
    | some p => some p
    | none => found_at g a b n

/-- All endpoints occurring on edges. -/
def endpointsList (g : Graph) : List String :=
  g.edges.flatMap (fun e => [e.src, e.dst])

/-- Every node a walk from `a` can visit. -/
def support (g : Graph) (a : String) : List String :=
  a :: endpointsList g

/-- A sufficient number of layers: a shortest walk repeats no node, so it
has fewer nodes than `|support|` + 1. -/
def bfsBound (g : Graph) (a : String) : Nat :=
  (support g a).length

/-- The breadth-first shortest path search of
`nx.bidirectional_shortest_path`, as observable behaviour: a
minimum-length node sequence from `a` to `b`, or `none` when
disconnected. -/
def bfs_path (g : Graph) (a b : String) : Option (List String) :=
  (search_up_to g a b (bfsBound g a)).map List.reverse

/-- The two NetworkX exceptions `get_all_tables_needed` can encounter:
`NodeNotFound` (uncaught) and `NetworkXNoPath` (caught). -/
inductive NxErr where
  | nodeNotFound : String → NxErr
  | noPath : NxErr
deriving DecidableEq

/-- `nx.shortest_path(G, a, b)`: `NodeNotFound` when an endpoint is
missing from the node set, `NetworkXNoPath` when disconnected, otherwise
a shortest path. -/
def shortest_path (g : Graph) (a b : String) : Except NxErr (List String) :=
  if a ∈ g.nodes then
    if b ∈ g.nodes then
      match bfs_path g a b with
      | some p => .ok p
      | none => .error .noPath
    else .error (.nodeNotFound b)
  else .error (.nodeNotFound a)

/-- `all_tables.update(path)` on the accumulator, keeping first-insertion
order (only set membership is observable). -/
def union_update (acc : List String) (xs : List String) : List String :=
  xs.foldl (fun l x => if x ∈ l then l else l ++ [x]) acc

/-- The `for i / for j` double loop of `get_all_tables_needed`: per pair,
a `try` around `nx.shortest_path` whose `except` clause catches only
`NetworkXNoPath`; a `NodeNotFound` propagates. -/
def gatn_loop (g : Graph) : List (String × String) → List String → Except NxErr (List String)
  | [], acc => .ok acc
  | pr :: rest, acc =>
    match shortest_path g pr.1 pr.2 with
    | .ok p => gatn_loop g rest (union_update acc p)
    | .error .noPath => gatn_loop g rest acc
    | .error (.nodeNotFound n) => .error (.nodeNotFound n)

/-- `TableKnowledgeGraph.get_all_tables_needed`. -/
def get_all_tables_needed (g : Graph) (tables : List String) :
    Except NxErr (List String) :=
  gatn_loop g (pairsOf tables) (union_update [] tables)

/-! ## The class state and its query methods

For the frame claim the two query methods are embedded state-passing: the
translation of each method body only reads the state, so the returned
state is the input state. -/

/-- The `TableKnowledgeGraph` object state after `__init__`. -/
structure TableKnowledgeGraph where
  graph : Graph
  schemas : List (String × List Column)
  relationships : List Relationship
deriving DecidableEq

/-- `TableKnowledgeGraph.__init__`. -/
def TableKnowledgeGraph.init (schemas : List (String × List Column))
    (rels : List Relationship) : TableKnowledgeGraph :=
  { graph := build_graph schemas rels, schemas := schemas, relationships := rels }

/-- The method `get_join_relationships` with the object state threaded
explicitly. -/
def kg_get_join_relationships (kg : TableKnowledgeGraph) (tables : List String)
    (ctx : Option String) : List JoinRecord × TableKnowledgeGraph :=
  (get_join_relationships kg.graph tables ctx, kg)

/-- The method `get_all_tables_needed` with the object state threaded
explicitly. -/
def kg_get_all_tables_needed (kg : TableKnowledgeGraph) (tables : List String) :
    Except NxErr (List String) × TableKnowledgeGraph :=
  (get_all_tables_needed kg.graph tables, kg)

/-! ## Stage-1 response parsing (`TextToSQLPipeline.identify_tables`) -/

/-- The fence-stripping prelude of `identify_tables`: `strip`, drop a
leading ` ```json ` or ` ``` ` marker, drop a trailing ` ``` ` marker,
`strip` again. -/
def clean_response (response : String) : String :=
  let r := py_strip response
  let r := if py_startswith r "```json" then r.drop 7
           else if py_startswith r "```" then r.drop 3
           else r
  let r := if py_endswith r "```" then r.dropRight 3 else r
  py_strip r

/-- Python `str.find` for a single character (`none` for `-1`). -/
def py_find (c : Char) (s : String) : Option Nat :=
  s.data.findIdx? (fun ch => ch == c)

/-- Python `str.rfind` for a single character (`none` for `-1`). -/
def py_rfind (c : Char) (s : String) : Option Nat :=
  match s.data.reverse.findIdx? (fun ch => ch == c) with
  | some k => some (s.data.length - 1 - k)
  | none => none

/-- Python slice `s[a:b]` (for `a ≤ b`). -/
def py_slice (s : String) (a b : Nat) : String :=
  ⟨(s.data.drop a).take (b - a)⟩

/-- The JSON extraction of `identify_tables`, generic in the JSON parser
(`json.loads` succeeding iff the parser returns `some`): clean the
response, take the substring from the first `{` to the last `}` when the
two exist in that order (otherwise the whole cleaned response), parse it;
a failure raises, carrying the cleaned response text that `st.error`
reports. -/
def identify_tables_parse {J : Type} (jparse : String → Option J)
    (response : String) : Except String J :=
  let r := clean_response response
  let start? := py_find '\x7b' r
  let endIdx := match py_rfind '\x7d' r with | some k => k + 1 | none => 0
  match start? with
  | some st =>
    if st < endIdx then
      match jparse (py_slice r st endIdx) with
      | some v => .ok v
      | none => .error r
    else
      match jparse r with
      | some v => .ok v
      | none => .error r
  | none =>
    match jparse r with
    | some v => .ok v
    | none => .error r

/-! ## Concrete instances used by witnesses and counterexamples -/

/-- A default edge with a one-column key, declared `a → b`. -/
def simpleEdge (a b : String) : Edge :=
  { src := a, dst := b, source_columns := ["k"], target_columns := ["k"],
    join_type := "INNER", context := "default", description := "" }

/-- C1 counterexample graph: a default edge declared `A → B` and a
context-specific edge declared in the opposite direction `B → A`. -/
def cexG1 : Graph :=
  { nodes := ["A", "B"],
    edges := [simpleEdge "A" "B",
      { src := "B", dst := "A", source_columns := ["c"], target_columns := ["c"],
        join_type := "INNER", context := "Country data", description := "" }] }

/-- C1 witness graph: a lone default edge `A → B`. -/
def witG1 : Graph := { nodes := ["A", "B"], edges := [simpleEdge "A" "B"] }

/-- C2 relationship whose two `+`-delimited key lists have lengths 2 and 1. -/
def relMismatch : Relationship :=
  { table1 := "T1", table2 := "T2", join_key_1 := "A+B", join_key_2 := "C",
    join_type := none, context := none, description := none }

/-- C3 graph: a single known node `A`, no edges. -/
def cexG3 : Graph := { nodes := ["A"], edges := [] }

/-- C3 witness graph: known nodes `A`, `B`, no edges. -/
def witG3 : Graph := { nodes := ["A", "B"], edges := [] }

/-- C4 witness graph: `A – M – B` plus an isolated node `C`. -/
def witG4 : Graph :=
  { nodes := ["A", "M", "B", "C"],
    edges := [simpleEdge "A" "M", simpleEdge "M" "B"] }

/-- C5 witness graph: one edge per direction between `A` and `B`. -/
def witG5 : Graph :=
  { nodes := ["A", "B"],
    edges := [simpleEdge "A" "B", simpleEdge "B" "A"] }

/-- C6 witness edge: a two-column composite key. -/
def witE6 : Edge :=
  { src := "Counterparty", dst := "Trade",
    source_columns := ["Entity", "Counterparty ID"],
    target_columns := ["Entity", "Reporting Counterparty ID"],
    join_type := "INNER", context := "default", description := "" }

/-- C7 scenario, first relationship: the country-level composite key. -/
def relC7country : Relationship :=
  { table1 := "Counterparty", table2 := "Concentration",
    join_key_1 := "Entity+Counterparty Country",
    join_key_2 := "Entity+Concentration Value",
    join_type := none, context := some "For country level data", description := none }

/-- C7 scenario, second relationship: a default edge on a different
composite key. -/
def relC7default : Relationship :=
  { table1 := "Counterparty", table2 := "Concentration",
    join_key_1 := "Entity+Counterparty ID",
    join_key_2 := "Entity+Reporting Counterparty ID",
    join_type := none, context := none, description := none }

/-- The C7 graph, built by `build_graph` from the two relationships. -/
def gC7 : Graph := build_graph [] [relC7country, relC7default]

/-- C8 witness input: a fenced JSON object. -/
def rawW8 : String := "```json \x7b\"tables\": [\"Counterparty\"]\x7d ```"

/-- C10 witness graph: a lone edge whose composite keys have lengths 2
and 1, exercising the `zip` truncation. -/
def witG10 : Graph :=
  { nodes := ["T1", "T2"],
    edges := [{ src := "T1", dst := "T2", source_columns := ["A", "B"],
                target_columns := ["C"], join_type := "INNER",
                context := "default", description := "" }] }

/-- The single record C10's witness expects: the two-column source list is
truncated against the one-column target list. -/
def witR10 : JoinRecord :=
  { from_table := "T1", to_table := "T2", join_condition := "T1.A = T2.C",
    join_type := "INNER", context := "default", description := "" }

/-! ## Walk and search lemmas -/

theorem adj_symm {g : Graph} {x y : String} (h : Adj g x y) : Adj g y x := by
  obtain ⟨e, he, h⟩ := h
  exact ⟨e, he, h.symm⟩

theorem mem_nbrs {g : Graph} {x y : String} : y ∈ nbrs g x ↔ Adj g x y := by
  unfold nbrs Adj
  rw [List.mem_flatMap]
  constructor
  · rintro ⟨e, he, hy⟩
    rw [List.mem_append] at hy
    refine ⟨e, he, ?_⟩
    rcases hy with hy | hy
    · by_cases h : e.src = x
      · simp only [if_pos h, List.mem_singleton] at hy
        exact Or.inl ⟨h, hy.symm⟩
      · simp [if_neg h] at hy
    · by_cases h : e.dst = x
      · simp only [if_pos h, List.mem_singleton] at hy
        exact Or.inr ⟨hy.symm, h⟩
      · simp [if_neg h] at hy
  · rintro ⟨e, he, ⟨h1, h2⟩ | ⟨h1, h2⟩⟩
    · exact ⟨e, he, by simp [h1, h2]⟩
    · exact ⟨e, he, by simp [h1, h2]⟩

theorem mem_walksR {g : Graph} {a : String} :
    ∀ {n : Nat} {p : List String},
      p ∈ walksR g a n ↔
        p.length = n + 1 ∧ p.Chain' (Adj g) ∧ p.getLast? = some a := by
  intro n
  induction n with
  | zero =>
    intro p
    constructor
    · intro hp
      simp only [walksR, List.mem_singleton] at hp
      subst hp
      exact ⟨rfl, List.chain'_singleton a, rfl⟩
    · rintro ⟨hlen, _, hlast⟩
      match p, hlen with
      | [x], _ =>
        simp only [List.getLast?_singleton, Option.some.injEq] at hlast
        simp [walksR, hlast]
  | succ n ih =>
    intro p
    constructor
    · intro hp
      simp only [walksR, List.mem_flatMap] at hp
      obtain ⟨q, hq, hpq⟩ := hp
      obtain ⟨hqlen, hqch, hqlast⟩ := ih.mp hq
      rcases q with _ | ⟨x, t⟩
      · simp at hqlen
      · simp only [List.mem_map] at hpq
        obtain ⟨y, hy, rfl⟩ := hpq
        refine ⟨?_, ?_, ?_⟩
        · simp only [List.length_cons] at hqlen ⊢
          omega
        · exact List.chain'_cons.mpr ⟨adj_symm (mem_nbrs.mp hy), hqch⟩
        · rw [List.getLast?_cons_cons]
          exact hqlast
    · rintro ⟨hlen, hch, hlast⟩
      rcases p with _ | ⟨y, _ | ⟨x, t⟩⟩
      · simp at hlen
      · simp only [List.length_cons, List.length_nil] at hlen
        omega
      · simp only [walksR, List.mem_flatMap]
        obtain ⟨hadj, hch'⟩ := List.chain'_cons.mp hch
        refine ⟨x :: t, ih.mpr ⟨?_, hch', ?_⟩, ?_⟩
        · simp only [List.length_cons] at hlen ⊢
          omega
        · rw [List.getLast?_cons_cons] at hlast
          exact hlast
        · simp only [List.mem_map]
          exact ⟨y, mem_nbrs.mpr (adj_symm hadj), rfl⟩

theorem found_at_some {g : Graph} {a b : String} {n : Nat} {p : List String}
    (h : found_at g a b n = some p) :
    p ∈ walksR g a n ∧ p.head? = some b := by
  refine ⟨List.mem_of_find?_eq_some h, ?_⟩
  have := List.find?_some h
  simpa using this

theorem found_at_none {g : Graph} {a b : String} {n : Nat}
    (h : found_at g a b n = none) :
    ∀ p ∈ walksR g a n, p.head? ≠ some b := by
  intro p hp
  have := List.find?_eq_none.mp h p hp
  simpa using this

theorem search_up_to_none {g : Graph} {a b : String} :
    ∀ {n : Nat}, search_up_to g a b n = none →
      ∀ k < n, ∀ p ∈ walksR g a k, p.head? ≠ some b := by
  intro n
  induction n with
  | zero => intro _ k hk; omega
  | succ n ih =>
    intro h k hk
    unfold search_up_to at h
    rcases hs : search_up_to g a b n with _ | q
    · rw [hs] at h
      rcases hk' : Nat.lt_or_ge k n with _ | _
      · rcases Nat.lt_or_ge k n with hlt | hge
        · exact ih hs k hlt
        · have : k = n := by omega
          subst this
          exact found_at_none h
      · rcases Nat.lt_or_ge k n with hlt | hge
        · exact ih hs k hlt
        · have : k = n := by omega
          subst this
          exact found_at_none h
    · rw [hs] at h
      exact absurd h (by simp)

theorem search_up_to_some {g : Graph} {a b : String} :
    ∀ {n : Nat} {p : List String}, search_up_to g a b n = some p →
      ∃ m < n, p ∈ walksR g a m ∧ p.head? = some b ∧
        ∀ k < m, ∀ q ∈ walksR g a k, q.head? ≠ some b := by
  intro n
  induction n with
  | zero => intro p h; simp [search_up_to] at h
  | succ n ih =>
    intro p h
    unfold search_up_to at h
    rcases hs : search_up_to g a b n with _ | q
    · rw [hs] at h
      obtain ⟨hw, hh⟩ := found_at_some h
      exact ⟨n, Nat.lt_succ_self n, hw, hh, search_up_to_none hs⟩
    · rw [hs] at h
      obtain rfl : q = p := by simpa using h
      obtain ⟨m, hm, rest⟩ := ih hs
      exact ⟨m, Nat.lt_succ_of_lt hm, rest⟩

/-! ### Shortening a walk to a duplicate-free walk -/

theorem head?_append_cons {α : Type} (s : List α) (x : α) (u v : List α) :
    (s ++ x :: u).head? = (s ++ x :: v).head? := by
  cases s <;> simp

theorem not_nodup_split {α : Type} [DecidableEq α] :
    ∀ {l : List α}, ¬ l.Nodup → ∃ x s t u, l = s ++ x :: t ++ x :: u := by
  intro l
  induction l with
  | nil => intro h; exact absurd List.nodup_nil h
  | cons y ys ih =>
    intro h
    rw [List.nodup_cons] at h
    push_neg at h
    by_cases hy : y ∈ ys
    · obtain ⟨t, u, rfl⟩ := List.append_of_mem hy
      exact ⟨y, [], t, u, by simp⟩
    · obtain ⟨x, s, t, u, rfl⟩ := ih (h hy)
      exact ⟨x, y :: s, t, u, by simp⟩

theorem chain'_cut {α : Type} {R : α → α → Prop} {s t u : List α} {x : α}
    (h : List.Chain' R (s ++ x :: (t ++ x :: u))) :
    List.Chain' R (s ++ x :: u) := by
  rw [List.chain'_append] at h ⊢
  obtain ⟨h1, h2, h3⟩ := h
  refine ⟨h1, ?_, ?_⟩
  · have h2' : List.Chain' R ((x :: t) ++ (x :: u)) := by simpa using h2
    exact (List.chain'_append.mp h2').2.1
  · intro p hp q hq
    refine h3 p hp q ?_
    simpa using hq

theorem getLast?_append_cons {α : Type} (s : List α) (x : α) (u : List α) :
    (s ++ x :: u).getLast? = (x :: u).getLast? := by
  rw [List.getLast?_append]
  cases hu : (x :: u).getLast? with
  | none => simp at hu
  | some z => simp

theorem exists_nodup_walk_aux {g : Graph} {a b : String} :
    ∀ (n : Nat) (p : List String), p.length ≤ n → IsWalk g a b p →
      ∃ q, IsWalk g a b q ∧ q.Nodup ∧ q.length ≤ p.length := by
  intro n
  induction n with
  | zero =>
    intro p hlen hw
    obtain ⟨_, hhd, _⟩ := hw
    rcases p with _ | _
    · simp at hhd
    · simp at hlen
  | succ n ih =>
    intro p hlen hw
    by_cases hnd : p.Nodup
    · exact ⟨p, hw, hnd, le_refl _⟩
    · obtain ⟨x, s, t, u, rfl⟩ := not_nodup_split hnd
      obtain ⟨hch, hhd, hlast⟩ := hw
      have hch' : List.Chain' (Adj g) (s ++ x :: u) := by
        apply chain'_cut
        simpa using hch
      have hhd' : (s ++ x :: u).head? = some a := by
        rw [head?_append_cons s x u (t ++ x :: u)]
        simpa using hhd
      have hlast' : (s ++ x :: u).getLast? = some b := by
        rw [getLast?_append_cons]
        have hl2 : (x :: (t ++ x :: u)).getLast? = some b := by
          have h0 := hlast
          rw [show s ++ x :: t ++ x :: u = s ++ (x :: (t ++ x :: u)) by simp] at h0
          rw [getLast?_append_cons] at h0
          exact h0
        rw [show (x :: (t ++ x :: u)) = (x :: t) ++ (x :: u) by simp] at hl2
        rw [getLast?_append_cons] at hl2
        exact hl2
      have hle : (s ++ x :: u).length ≤ n := by
        simp only [List.length_append, List.length_cons] at hlen ⊢
        omega
      obtain ⟨q, hq, hqnd, hqle⟩ := ih _ hle ⟨hch', hhd', hlast'⟩
      refine ⟨q, hq, hqnd, ?_⟩
      simp only [List.length_append, List.length_cons] at hqle ⊢
      omega

/-- Any walk shortens to a duplicate-free walk with the same endpoints. -/
theorem exists_nodup_walk {g : Graph} {a b : String} {p : List String}
    (hw : IsWalk g a b p) :
    ∃ q, IsWalk g a b q ∧ q.Nodup ∧ q.length ≤ p.length :=
  exists_nodup_walk_aux p.length p (le_refl _) hw

theorem mem_endpoints_of_adj {g : Graph} {u v : String} (h : Adj g u v) :
    v ∈ endpointsList g := by
  obtain ⟨e, he, h⟩ := h
  unfold endpointsList
  rw [List.mem_flatMap]
  rcases h with ⟨h1, h2⟩ | ⟨h1, h2⟩
  · exact ⟨e, he, by simp [h2]⟩
  · exact ⟨e, he, by simp [h1]⟩

theorem chain'_tail_endpoints {g : Graph} :
    ∀ (p : List String), p.Chain' (Adj g) → ∀ x ∈ p.drop 1, x ∈ endpointsList g := by
  intro p
  induction p with
  | nil => intro _ x hx; simp at hx
  | cons y t ih =>
    intro h x hx
    simp only [List.drop_one, List.tail_cons] at hx
    rcases t with _ | ⟨z, t'⟩
    · simp at hx
    · obtain ⟨hadj, hch⟩ := List.chain'_cons.mp h
      rcases List.mem_cons.mp hx with rfl | hx'
      · exact mem_endpoints_of_adj hadj
      · exact ih hch x (by simpa using hx')

theorem walk_subset_support {g : Graph} {a b : String} {p : List String}
    (hw : IsWalk g a b p) : ∀ x ∈ p, x ∈ support g a := by
  obtain ⟨hch, hhd, _⟩ := hw
  rcases p with _ | ⟨y, t⟩
  · simp
  · have hy : y = a := by simpa using hhd
    subst hy
    intro x hx
    rcases List.mem_cons.mp hx with rfl | hx'
    · exact List.mem_cons_self _ _
    · exact List.mem_cons_of_mem _ (chain'_tail_endpoints _ hch x (by simpa using hx'))

theorem nodup_length_le {α : Type} [DecidableEq α] {q L : List α}
    (hnd : q.Nodup) (hsub : ∀ x ∈ q, x ∈ L) : q.length ≤ L.length := by
  have h1 : q.toFinset.card = q.length := List.toFinset_card_of_nodup hnd
  have h2 : q.toFinset ⊆ L.toFinset := by
    intro x hx
    rw [List.mem_toFinset] at hx ⊢
    exact hsub x hx
  calc q.length = q.toFinset.card := h1.symm
    _ ≤ L.toFinset.card := Finset.card_le_card h2
    _ ≤ L.length := List.toFinset_card_le L

/-- A walk, reversed, is one of the enumerated reversed walks, with the
target at its head. -/
theorem rev_mem_walksR {g : Graph} {a b : String} {r : List String}
    (hr : IsWalk g a b r) :
    r.reverse ∈ walksR g a (r.length - 1) ∧ r.reverse.head? = some b ∧
      0 < r.length := by
  obtain ⟨hch, hhd, hlast⟩ := hr
  have hpos : 0 < r.length := by
    rcases r with _ | _
    · simp at hhd
    · simp
  refine ⟨?_, ?_, hpos⟩
  · apply mem_walksR.mpr
    refine ⟨?_, ?_, ?_⟩
    · rw [List.length_reverse]
      omega
    · rw [List.chain'_reverse]
      exact hch.imp (fun _ _ h => adj_symm h)
    · rw [List.getLast?_reverse]
      exact hhd
  · rw [List.head?_reverse]
    exact hlast

/-- Soundness: a produced path is a minimum-length walk. -/
theorem bfs_path_some {g : Graph} {a b : String} {q : List String}
    (h : bfs_path g a b = some q) : IsShortestWalk g a b q := by
  unfold bfs_path at h
  rcases hs : search_up_to g a b (bfsBound g a) with _ | p
  · rw [hs] at h; simp at h
  · rw [hs] at h
    obtain rfl : p.reverse = q := by simpa using h
    obtain ⟨m, _, hw, hh, hmin⟩ := search_up_to_some hs
    obtain ⟨hlen, hch, hlast⟩ := mem_walksR.mp hw
    have hwalk : IsWalk g a b p.reverse := by
      refine ⟨?_, ?_, ?_⟩
      · rw [List.chain'_reverse]
        exact hch.imp (fun _ _ h => adj_symm h)
      · rw [List.head?_reverse]
        exact hlast
      · rw [List.getLast?_reverse]
        exact hh
    refine ⟨hwalk, ?_⟩
    intro r hr
    obtain ⟨hrrev, hrhead, hrpos⟩ := rev_mem_walksR hr
    by_cases hcmp : r.length - 1 < m
    · exact absurd hrhead (hmin _ hcmp _ hrrev)
    · rw [List.length_reverse, hlen]
      omega

/-- Completeness: `none` means the endpoints are disconnected. -/
theorem bfs_path_none {g : Graph} {a b : String}
    (h : bfs_path g a b = none) : ¬ ReachableU g a b := by
  rintro ⟨p, hp⟩
  obtain ⟨q, hq, hqnd, _⟩ := exists_nodup_walk hp
  have hbound : q.length ≤ bfsBound g a :=
    nodup_length_le hqnd (walk_subset_support hq)
  obtain ⟨hqrev, hqhead, hqpos⟩ := rev_mem_walksR hq
  unfold bfs_path at h
  rcases hs : search_up_to g a b (bfsBound g a) with _ | p'
  · exact (search_up_to_none hs (q.length - 1) (by omega) _ hqrev) hqhead
  · rw [hs] at h
    simp at h

theorem bfs_path_reachable {g : Graph} {a b : String} (h : ReachableU g a b) :
    ∃ q, bfs_path g a b = some q := by
  rcases hb : bfs_path g a b with _ | q
  · exact absurd h (bfs_path_none hb)
  · exact ⟨q, rfl⟩

/-! ### The table-gathering loop -/

theorem mem_union_update :
    ∀ (xs acc : List String) (x : String),
      x ∈ union_update acc xs ↔ x ∈ acc ∨ x ∈ xs := by
  intro xs
  induction xs with
  | nil => intro acc x; simp [union_update]
  | cons y ys ih =>
    intro acc x
    have hstep : union_update acc (y :: ys)
        = union_update (if y ∈ acc then acc else acc ++ [y]) ys := rfl
    rw [hstep, ih]
    by_cases hy : y ∈ acc
    · rw [if_pos hy]
      constructor
      · rintro (h | h)
        · exact Or.inl h
        · exact Or.inr (List.mem_cons_of_mem _ h)
      · rintro (h | h)
        · exact Or.inl h
        · rcases List.mem_cons.mp h with rfl | h'
          · exact Or.inl hy
          · exact Or.inr h'
    · rw [if_neg hy]
      simp only [List.mem_append, List.mem_singleton, List.mem_cons]
      tauto

theorem mem_pairsOf :
    ∀ {l : List String} {pr : String × String},
      pr ∈ pairsOf l → pr.1 ∈ l ∧ pr.2 ∈ l := by
  intro l
  induction l with
  | nil => intro pr h; simp [pairsOf] at h
  | cons x xs ih =>
    intro pr h
    simp only [pairsOf, List.mem_append, List.mem_map] at h
    rcases h with ⟨y, hy, rfl⟩ | h
    · exact ⟨List.mem_cons_self _ _, List.mem_cons_of_mem _ hy⟩
    · obtain ⟨h1, h2⟩ := ih h
      exact ⟨List.mem_cons_of_mem _ h1, List.mem_cons_of_mem _ h2⟩

theorem shortest_path_of_mem {g : Graph} {a b : String}
    (ha : a ∈ g.nodes) (hb : b ∈ g.nodes) :
    shortest_path g a b
      = (match bfs_path g a b with
         | some p => Except.ok p
         | none => Except.error NxErr.noPath) := by
  unfold shortest_path
  rw [if_pos ha, if_pos hb]

theorem gatn_loop_spec (g : Graph) :
    ∀ (prs : List (String × String)) (acc : List String),
      (∀ pr ∈ prs, pr.1 ∈ g.nodes ∧ pr.2 ∈ g.nodes) →
      ∃ res, gatn_loop g prs acc = .ok res ∧
        ∀ x, x ∈ res ↔
          x ∈ acc ∨ ∃ pr ∈ prs, ∃ p, bfs_path g pr.1 pr.2 = some p ∧ x ∈ p := by
  intro prs
  induction prs with
  | nil =>
    intro acc _
    exact ⟨acc, rfl, by simp⟩
  | cons pr rest ih =>
    intro acc h
    obtain ⟨ha, hb⟩ := h pr (List.mem_cons_self _ _)
    have hrest : ∀ pr' ∈ rest, pr'.1 ∈ g.nodes ∧ pr'.2 ∈ g.nodes :=
      fun pr' h' => h pr' (List.mem_cons_of_mem _ h')
    rcases hbfs : bfs_path g pr.1 pr.2 with _ | p
    · have hsp : shortest_path g pr.1 pr.2 = .error .noPath := by
        rw [shortest_path_of_mem ha hb, hbfs]
      obtain ⟨res, hres, hiff⟩ := ih acc hrest
      refine ⟨res, ?_, ?_⟩
      · unfold gatn_loop
        rw [hsp]
        exact hres
      · intro x
        rw [hiff x]
        constructor
        · rintro (h' | ⟨pr', hpr', hp⟩)
          · exact Or.inl h'
          · exact Or.inr ⟨pr', List.mem_cons_of_mem _ hpr', hp⟩
        · rintro (h' | ⟨pr', hpr', p', hp', hx⟩)
          · exact Or.inl h'
          · rcases List.mem_cons.mp hpr' with rfl | h''
            · rw [hbfs] at hp'
              cases hp'
            · exact Or.inr ⟨pr', h'', p', hp', hx⟩
    · have hsp : shortest_path g pr.1 pr.2 = .ok p := by
        rw [shortest_path_of_mem ha hb, hbfs]
      obtain ⟨res, hres, hiff⟩ := ih (union_update acc p) hrest
      refine ⟨res, ?_, ?_⟩
      · unfold gatn_loop
        rw [hsp]
        exact hres
      · intro x
        rw [hiff x, mem_union_update]
        constructor
        · rintro ((h' | h') | ⟨pr', hpr', hp⟩)
          · exact Or.inl h'
          · exact Or.inr ⟨pr, List.mem_cons_self _ _, p, hbfs, h'⟩
          · exact Or.inr ⟨pr', List.mem_cons_of_mem _ hpr', hp⟩
        · rintro (h' | ⟨pr', hpr', p', hp', hx⟩)
          · exact Or.inl (Or.inl h')
          · rcases List.mem_cons.mp hpr' with rfl | h''
            · rw [hbfs] at hp'
              obtain rfl : p = p' := by simpa using hp'
              exact Or.inl (Or.inr hx)
            · exact Or.inr ⟨pr', h'', p', hp', hx⟩

theorem shortest_path_nodeNotFound_not_mem {g : Graph} {a b n : String}
    (h : shortest_path g a b = .error (.nodeNotFound n)) : n ∉ g.nodes := by
  unfold shortest_path at h
  by_cases ha : a ∈ g.nodes
  · rw [if_pos ha] at h
    by_cases hb : b ∈ g.nodes
    · rw [if_pos hb] at h
      rcases hbfs : bfs_path g a b with _ | p
      · rw [hbfs] at h
        simp at h
      · rw [hbfs] at h
        simp at h
    · rw [if_neg hb] at h
      simp only [Except.error.injEq, NxErr.nodeNotFound.injEq] at h
      rw [← h]
      exact hb
  · rw [if_neg ha] at h
    simp only [Except.error.injEq, NxErr.nodeNotFound.injEq] at h
    rw [← h]
    exact ha

theorem shortest_path_mem_of_no_nnf {g : Graph} {a b : String}
    (h : ∀ n, shortest_path g a b ≠ .error (.nodeNotFound n)) :
    a ∈ g.nodes ∧ b ∈ g.nodes := by
  unfold shortest_path at h
  by_cases ha : a ∈ g.nodes
  · by_cases hb : b ∈ g.nodes
    · exact ⟨ha, hb⟩
    · exfalso
      apply h b
      rw [if_pos ha, if_neg hb]
  · exfalso
    apply h a
    rw [if_neg ha]

/-- If any remaining pair has an endpoint that is not a node, the loop
ends in `NodeNotFound` for some non-node name: every pair is examined in
order, and `shortest_path` only continues past pairs whose endpoints are
both nodes. -/
theorem gatn_loop_err (g : Graph) :
    ∀ (prs : List (String × String)) (acc : List String),
      (∃ pr ∈ prs, pr.1 ∉ g.nodes ∨ pr.2 ∉ g.nodes) →
      ∃ n, n ∉ g.nodes ∧
        gatn_loop g prs acc = .error (.nodeNotFound n) := by
  intro prs
  induction prs with
  | nil =>
    rintro acc ⟨pr, hpr, _⟩
    simp at hpr
  | cons pr rest ih =>
    rintro acc hex
    rcases hsp : shortest_path g pr.1 pr.2 with err | p
    · rcases err with n | _
      · refine ⟨n, shortest_path_nodeNotFound_not_mem hsp, ?_⟩
        unfold gatn_loop
        rw [hsp]
      · have hmem : pr.1 ∈ g.nodes ∧ pr.2 ∈ g.nodes := by
          apply shortest_path_mem_of_no_nnf
          intro n h
          rw [hsp] at h
          simp at h
        obtain ⟨pr', hpr', hun⟩ := hex
        rcases List.mem_cons.mp hpr' with rfl | hrest
        · rcases hun with h | h
          · exact absurd hmem.1 h
          · exact absurd hmem.2 h
        · obtain ⟨n, hn, hloop⟩ := ih acc ⟨pr', hrest, hun⟩
          refine ⟨n, hn, ?_⟩
          unfold gatn_loop
          rw [hsp]
          exact hloop
    · have hmem : pr.1 ∈ g.nodes ∧ pr.2 ∈ g.nodes := by
        apply shortest_path_mem_of_no_nnf
        intro n h
        rw [hsp] at h
        simp at h
      obtain ⟨pr', hpr', hun⟩ := hex
      rcases List.mem_cons.mp hpr' with rfl | hrest
      · rcases hun with h | h
        · exact absurd hmem.1 h
        · exact absurd hmem.2 h
      · obtain ⟨n, hn, hloop⟩ := ih (union_update acc p) ⟨pr', hrest, hun⟩
        refine ⟨n, hn, ?_⟩
        unfold gatn_loop
        rw [hsp]
        exact hloop

/-- In a list of two or more entries, every member occurs in some pair of
the double loop (as first component when it comes first, as second
component otherwise). -/
theorem exists_pair_of_mem :
    ∀ {l : List String} {x : String}, x ∈ l → 2 ≤ l.length →
      ∃ pr ∈ pairsOf l, pr.1 = x ∨ pr.2 = x := by
  intro l
  induction l with
  | nil => intro x h _; simp at h
  | cons y ys ih =>
    intro x hx hlen
    rcases ys with _ | ⟨z, zs⟩
    · simp at hlen
    · rcases List.mem_cons.mp hx with rfl | hx'
      · refine ⟨(x, z), ?_, Or.inl rfl⟩
        unfold pairsOf
        exact List.mem_append.mpr
          (Or.inl (List.mem_map.mpr ⟨z, List.mem_cons_self _ _, rfl⟩))
      · refine ⟨(y, x), ?_, Or.inr rfl⟩
        unfold pairsOf
        exact List.mem_append.mpr
          (Or.inl (List.mem_map.mpr ⟨x, hx', rfl⟩))

/-! ### Join-record bookkeeping -/

theorem records_for_direction_none (g : Graph) (s t : String) :
    records_for_direction g none s t
      = (edgesBetween g s t).map (render_record s t) := by
  unfold records_for_direction has_edge
  rcases hE : edgesBetween g s t with _ | ⟨e, es⟩
  · simp
  · simp only [hE, List.isEmpty_cons, Bool.not_false]
    simp only [if_true]
    congr 1
    apply List.filter_eq_self.mpr
    intro x _
    rfl

theorem records_from_table {g : Graph} {ctx : Option String} {s t : String}
    {r : JoinRecord} (h : r ∈ records_for_direction g ctx s t) :
    r.from_table = s ∧ r.to_table = t := by
  unfold records_for_direction at h
  split at h
  · rw [List.mem_map] at h
    obtain ⟨e, _, rfl⟩ := h
    exact ⟨rfl, rfl⟩
  · simp at h

theorem filter_flatMap {α β : Type} (p : β → Bool) (f : α → List β) :
    ∀ (l : List α), (l.flatMap f).filter p = l.flatMap (fun x => (f x).filter p) := by
  intro l
  induction l with
  | nil => rfl
  | cons x xs ih => simp only [List.flatMap_cons, List.filter_append, ih]

theorem flatMap_eq_nil_of {α β : Type} (f : α → List β) :
    ∀ (l : List α), (∀ x ∈ l, f x = []) → l.flatMap f = [] := by
  intro l
  induction l with
  | nil => intro _; rfl
  | cons x xs ih =>
    intro h
    rw [List.flatMap_cons, h x (List.mem_cons_self _ _), List.nil_append]
    exact ih (fun y hy => h y (List.mem_cons_of_mem _ hy))

theorem fst_of_mem_map_pair {x : String} {xs : List String}
    {pr : String × String} (h : pr ∈ xs.map (fun y => (x, y))) : pr.1 = x := by
  rw [List.mem_map] at h
  obtain ⟨y, _, rfl⟩ := h
  rfl

theorem pairsOf_nodup : ∀ {l : List String}, l.Nodup → (pairsOf l).Nodup := by
  intro l
  induction l with
  | nil => intro _; simp [pairsOf]
  | cons x xs ih =>
    intro h
    rw [List.nodup_cons] at h
    obtain ⟨hx, hxs⟩ := h
    unfold pairsOf
    apply List.Nodup.append
    · exact hxs.map (fun u v huv => by simpa using huv)
    · exact ih hxs
    · intro pr hpr1 hpr2
      have h1 : pr.1 = x := fst_of_mem_map_pair hpr1
      have h2 := (mem_pairsOf hpr2).1
      rw [h1] at h2
      exact hx h2

theorem pairsOf_no_swap : ∀ {l : List String} {a b : String}, l.Nodup →
    (a, b) ∈ pairsOf l → (b, a) ∉ pairsOf l := by
  intro l
  induction l with
  | nil => intro a b _ h; simp [pairsOf] at h
  | cons x xs ih =>
    intro a b hnd hab hba
    rw [List.nodup_cons] at hnd
    obtain ⟨hx, hxs⟩ := hnd
    simp only [pairsOf, List.mem_append, List.mem_map] at hab hba
    rcases hab with ⟨y, hy, heq⟩ | hab
    · cases heq
      rcases hba with ⟨z, hz, heq2⟩ | hba
      · injection heq2 with h1 h2
        rw [← h1] at hy
        exact hx hy
      · exact hx (mem_pairsOf hba).2
    · rcases hba with ⟨z, hz, heq2⟩ | hba
      · injection heq2 with h1 h2
        refine hx ?_
        rw [h1]
        exact (mem_pairsOf hab).2
      · exact ih hxs hab hba

theorem filter_flatMap_eq_single {α β : Type}
    (p : β → Bool) (f : α → List β) (a : α) :
    ∀ (l : List α), l.Nodup → a ∈ l →
      (∀ x ∈ l, x ≠ a → (f x).filter p = []) →
      (l.flatMap f).filter p = (f a).filter p := by
  intro l
  induction l with
  | nil => intro _ h _; simp at h
  | cons x xs ih =>
    intro hnd hmem hother
    rw [List.nodup_cons] at hnd
    obtain ⟨hx, hxs⟩ := hnd
    simp only [List.flatMap_cons, List.filter_append]
    rcases List.mem_cons.mp hmem with rfl | hmem'
    · have hnil : (xs.flatMap f).filter p = [] := by
        rw [filter_flatMap]
        apply flatMap_eq_nil_of
        intro y hy
        refine hother y (List.mem_cons_of_mem _ hy) ?_
        intro heq
        subst heq
        exact hx hy
      rw [hnil, List.append_nil]
    · have hxa : x ≠ a := by
        intro heq
        subst heq
        exact hx hmem'
      have h1 : (f x).filter p = [] := hother x (List.mem_cons_self _ _) hxa
      rw [h1, List.nil_append]
      exact ih hxs hmem' (fun y hy hne => hother y (List.mem_cons_of_mem _ hy) hne)

theorem has_edge_of_mem {g : Graph} {s t : String} {e : Edge}
    (he : e ∈ edgesBetween g s t) : has_edge g s t = true := by
  unfold has_edge
  rcases hE : edgesBetween g s t with _ | _
  · rw [hE] at he
    simp at he
  · simp

theorem mem_records_for_direction {g : Graph} {ctx : Option String}
    {s t : String} {e : Edge} (he : e ∈ edgesBetween g s t) :
    (render_record s t e ∈ records_for_direction g ctx s t ↔
      ∃ e' ∈ edgesBetween g s t,
        include_edge ctx (edgesBetween g s t) e' = true ∧
        render_record s t e' = render_record s t e) := by
  unfold records_for_direction
  rw [if_pos (has_edge_of_mem he)]
  rw [List.mem_map]
  constructor
  · rintro ⟨e', he', heq⟩
    rw [List.mem_filter] at he'
    exact ⟨e', he'.1, he'.2, heq⟩
  · rintro ⟨e', he', hinc, heq⟩
    exact ⟨e', List.mem_filter.mpr ⟨he', hinc⟩, heq⟩

/-- The per-edge filter, specialised to a default-labeled edge: kept
exactly when its own (lowercased) label contains the request, or when no
non-default edge **of the same declared direction** does. -/
theorem include_edge_default_iff {c : String} (hc : c ≠ "")
    {dict : List Edge} {e : Edge} (hdef : e.context = "default") :
    (include_edge (some c) dict e = true ↔
      (strContains (py_lower e.context) (py_lower c) = true ∨
        ∀ ed ∈ dict, ed.context ≠ "default" →
          strContains (py_lower ed.context) (py_lower c) = false)) := by
  simp only [include_edge]
  rw [if_neg hc]
  rw [hdef]
  simp only [beq_self_eq_true, Bool.true_and, Bool.or_eq_true,
    Bool.not_eq_true', List.any_eq_false, Bool.and_eq_true, bne_iff_ne,
    ne_eq, not_and, Bool.not_eq_true]

/-! ## Claim theorems -/

/-- C4: for a non-empty request whose names are all nodes,
`get_all_tables_needed` returns normally and its result is, as a set, the
requested tables united with the nodes of one shortest connecting path
per reachable pair; in particular it contains the input, contains any
unavoidable intermediate table, and for a disconnected two-table request
it is exactly those two tables. -/
theorem get_all_tables_needed_spec (g : Graph) (tables : List String)
    (hne : tables ≠ []) (hmem : ∀ t ∈ tables, t ∈ g.nodes) :
    ∃ res, get_all_tables_needed g tables = .ok res ∧
      (∀ t ∈ tables, t ∈ res) ∧
      (∃ σ : String × String → List String,
        (∀ pr ∈ pairsOf tables, ReachableU g pr.1 pr.2 →
          IsShortestWalk g pr.1 pr.2 (σ pr)) ∧
        (∀ x, x ∈ res ↔ x ∈ tables ∨
          ∃ pr ∈ pairsOf tables, ReachableU g pr.1 pr.2 ∧ x ∈ σ pr)) ∧
      (∀ a b m, (a, b) ∈ pairsOf tables → ReachableU g a b →
        (∀ p, IsWalk g a b p → m ∈ p) → m ∈ res) ∧
      (∀ a b, tables = [a, b] → ¬ ReachableU g a b →
        ∀ x, x ∈ res ↔ x = a ∨ x = b) := by
  have hpairs : ∀ pr ∈ pairsOf tables, pr.1 ∈ g.nodes ∧ pr.2 ∈ g.nodes := by
    intro pr hpr
    obtain ⟨h1, h2⟩ := mem_pairsOf hpr
    exact ⟨hmem _ h1, hmem _ h2⟩
  obtain ⟨res, hres, hiff⟩ :=
    gatn_loop_spec g (pairsOf tables) (union_update [] tables) hpairs
  refine ⟨res, hres, ?_, ?_, ?_, ?_⟩
  · intro t ht
    rw [hiff t]
    exact Or.inl ((mem_union_update tables [] t).mpr (Or.inr ht))
  · refine ⟨fun pr => (bfs_path g pr.1 pr.2).getD [], ?_, ?_⟩
    · intro pr _ hreach
      show IsShortestWalk g pr.1 pr.2 ((bfs_path g pr.1 pr.2).getD [])
      obtain ⟨q, hq⟩ := bfs_path_reachable hreach
      rw [hq]
      exact bfs_path_some hq
    · intro x
      rw [hiff x, mem_union_update]
      simp only [List.not_mem_nil, false_or]
      constructor
      · rintro (h | ⟨pr, hpr, p, hp, hx⟩)
        · exact Or.inl h
        · refine Or.inr ⟨pr, hpr, ⟨p, (bfs_path_some hp).1⟩, ?_⟩
          show x ∈ (bfs_path g pr.1 pr.2).getD []
          rw [hp]
          exact hx
      · rintro (h | ⟨pr, hpr, hreach, hx⟩)
        · exact Or.inl h
        · obtain ⟨q, hq⟩ := bfs_path_reachable hreach
          refine Or.inr ⟨pr, hpr, q, hq, ?_⟩
          have hx' : x ∈ (bfs_path g pr.1 pr.2).getD [] := hx
          rw [hq] at hx'
          exact hx'
  · intro a b m hab hreach hall
    obtain ⟨q, hq⟩ := bfs_path_reachable hreach
    rw [hiff m]
    exact Or.inr ⟨(a, b), hab, q, hq, hall _ (bfs_path_some hq).1⟩
  · intro a b htab hnreach x
    subst htab
    rw [hiff x]
    constructor
    · rintro (h | ⟨pr, hpr, p, hp, hx⟩)
      · rw [mem_union_update] at h
        simpa using h
      · have hpr' : pr = (a, b) := by simpa [pairsOf] using hpr
        subst hpr'
        exact absurd ⟨p, (bfs_path_some hp).1⟩ hnreach
    · rintro (rfl | rfl)
      · exact Or.inl ((mem_union_update _ _ _).mpr (Or.inr (by simp)))
      · exact Or.inl ((mem_union_update _ _ _).mpr (Or.inr (by simp)))

/-- C4 witness: the hypotheses hold and the conclusion is produced for the
graph `A – M – B` with isolated `C`, requesting `["A", "B"]`. -/
theorem get_all_tables_needed_spec_witness :
    (["A", "B"] ≠ ([] : List String)) ∧
    (∀ t ∈ ["A", "B"], t ∈ witG4.nodes) ∧
    (∃ res, get_all_tables_needed witG4 ["A", "B"] = .ok res ∧
      (∀ t ∈ ["A", "B"], t ∈ res) ∧
      (∃ σ : String × String → List String,
        (∀ pr ∈ pairsOf ["A", "B"], ReachableU witG4 pr.1 pr.2 →
          IsShortestWalk witG4 pr.1 pr.2 (σ pr)) ∧
        (∀ x, x ∈ res ↔ x ∈ ["A", "B"] ∨
          ∃ pr ∈ pairsOf ["A", "B"], ReachableU witG4 pr.1 pr.2 ∧ x ∈ σ pr)) ∧
      (∀ a b m, (a, b) ∈ pairsOf ["A", "B"] → ReachableU witG4 a b →
        (∀ p, IsWalk witG4 a b p → m ∈ p) → m ∈ res) ∧
      (∀ a b, ["A", "B"] = [a, b] → ¬ ReachableU witG4 a b →
        ∀ x, x ∈ res ↔ x = a ∨ x = b)) :=
  ⟨by decide, by decide,
    get_all_tables_needed_spec witG4 ["A", "B"] (by decide) (by decide)⟩

/-- C3 counterexample: requesting `["X", "A"]` against a graph whose only
node is `A` does not pass the unknown name through — it fails with the
uncaught `NodeNotFound` exception. -/
theorem unknown_table_raises_counterexample :
    get_all_tables_needed cexG3 ["X", "A"]
      = .error (.nodeNotFound "X") := rfl

/-- C3 amended: a singleton request passes any name (known or not)
through unchanged, but as soon as the request has two or more entries and
contains a name that is not a node — in any position — the double loop
reaches a pair with that name and `get_all_tables_needed` raises
`NodeNotFound` for some non-node name (the `except` clause catches only
`NetworkXNoPath`), instead of passing the unknown name through. -/
theorem unknown_table_behaviour :
    (∀ (g : Graph) (x : String), get_all_tables_needed g [x] = .ok [x]) ∧
    (∀ (g : Graph) (tables : List String) (x : String),
      2 ≤ tables.length → x ∈ tables → x ∉ g.nodes →
      ∃ n, n ∉ g.nodes ∧
        get_all_tables_needed g tables = .error (.nodeNotFound n)) := by
  constructor
  · intro g x
    rfl
  · intro g tables x hlen hx hnot
    obtain ⟨pr, hpr, hor⟩ := exists_pair_of_mem hx hlen
    have hex : ∃ pr ∈ pairsOf tables, pr.1 ∉ g.nodes ∨ pr.2 ∉ g.nodes := by
      refine ⟨pr, hpr, ?_⟩
      rcases hor with h | h
      · refine Or.inl ?_
        rw [h]
        exact hnot
      · refine Or.inr ?_
        rw [h]
        exact hnot
    exact gatn_loop_err g (pairsOf tables) (union_update [] tables) hex

/-- C3 witness: instance of the amended claim with the unknown name in
the second position (`A` is a node, `X` is not). -/
theorem unknown_table_behaviour_witness :
    (2 ≤ (["A", "X"] : List String).length) ∧
    ("X" ∈ (["A", "X"] : List String)) ∧
    ("X" ∉ witG3.nodes) ∧
    (∃ n, n ∉ witG3.nodes ∧
      get_all_tables_needed witG3 ["A", "X"] = .error (.nodeNotFound n)) ∧
    get_all_tables_needed witG3 ["Y"] = .ok ["Y"] :=
  ⟨by decide, by decide, by decide,
    unknown_table_behaviour.2 witG3 ["A", "X"] "X"
      (by decide) (by decide) (by decide),
    unknown_table_behaviour.1 witG3 "Y"⟩

/-- C9: after construction the query methods are pure readers — the
object state they return is the input state, so the node set, edge set
and stored schemas are unchanged by every query. -/
theorem query_methods_preserve_state :
    ∀ (kg : TableKnowledgeGraph) (tables tables' : List String)
      (ctx : Option String),
      (kg_get_join_relationships kg tables ctx).2 = kg ∧
      (kg_get_all_tables_needed kg tables').2 = kg ∧
      (kg_get_join_relationships kg tables ctx).2.graph.nodes = kg.graph.nodes ∧
      (kg_get_join_relationships kg tables ctx).2.graph.edges = kg.graph.edges ∧
      (kg_get_all_tables_needed kg tables').2.graph.edges = kg.graph.edges ∧
      (kg_get_all_tables_needed kg tables').2.schemas = kg.schemas :=
  fun _ _ _ _ => ⟨rfl, rfl, rfl, rfl, rfl, rfl⟩

/-- C2 counterexample: building from the relationship `"A+B"` vs `"C"`
(parsed lengths 2 and 1) does not fail — the edge is recorded with the
unequal column lists. -/
theorem malformed_join_key_recorded_counterexample :
    (build_graph [] [relMismatch]).edges
      = [{ src := "T1", dst := "T2", source_columns := ["A", "B"],
           target_columns := ["C"], join_type := "INNER", context := "default",
           description := "Join T1 with T2" }] := rfl

/-- C2 amended: `_build_graph` never validates the two parsed key lists
against each other: every relationship — also one whose `+`-delimited
lists differ in length — is recorded as an edge carrying exactly the
parsed column lists; no `MalformedJoinKey` condition exists. -/
theorem build_graph_records_mismatched_edge
    (schemas : List (String × List Column)) (rels : List Relationship)
    (r : Relationship) (hr : r ∈ rels)
    (hlen : (parse_key r.join_key_1).length ≠ (parse_key r.join_key_2).length) :
    mkEdge r ∈ (build_graph schemas rels).edges ∧
      (mkEdge r).source_columns = parse_key r.join_key_1 ∧
      (mkEdge r).target_columns = parse_key r.join_key_2 ∧
      (mkEdge r).source_columns.length ≠ (mkEdge r).target_columns.length := by
  refine ⟨?_, rfl, rfl, hlen⟩
  show mkEdge r ∈ rels.map mkEdge
  exact List.mem_map_of_mem _ hr

/-- C2 witness: instance of the amended claim on the mismatched
relationship. -/
theorem build_graph_records_mismatched_edge_witness :
    relMismatch ∈ [relMismatch] ∧
    (parse_key relMismatch.join_key_1).length
      ≠ (parse_key relMismatch.join_key_2).length ∧
    (mkEdge relMismatch ∈ (build_graph [] [relMismatch]).edges ∧
      (mkEdge relMismatch).source_columns = parse_key relMismatch.join_key_1 ∧
      (mkEdge relMismatch).target_columns = parse_key relMismatch.join_key_2 ∧
      (mkEdge relMismatch).source_columns.length
        ≠ (mkEdge relMismatch).target_columns.length) :=
  ⟨by decide, by decide,
    build_graph_records_mismatched_edge [] [relMismatch] relMismatch
      (by decide) (by decide)⟩

/-- C10: every emitted join record comes from a stored edge, whose
condition is rendered totally as the `zip` of the two column lists — so
it holds exactly `min` of the two lengths equalities, silently dropping
the surplus columns of the longer list. -/
theorem join_condition_zip_truncation (g : Graph) (tables : List String)
    (ctx : Option String) (r : JoinRecord)
    (hr : r ∈ get_join_relationships g tables ctx) :
    ∃ e ∈ g.edges,
      r.join_condition
        = String.intercalate " AND "
            (render_equalities r.from_table r.to_table e) ∧
      (render_equalities r.from_table r.to_table e).length
        = min e.source_columns.length e.target_columns.length := by
  unfold get_join_relationships at hr
  rw [List.mem_flatMap] at hr
  obtain ⟨pr, _, hr⟩ := hr
  rw [List.mem_append] at hr
  have key : ∀ s t, r ∈ records_for_direction g ctx s t →
      ∃ e ∈ g.edges, r = render_record s t e := by
    intro s t hmem
    unfold records_for_direction at hmem
    by_cases hhe : has_edge g s t
    · rw [if_pos hhe] at hmem
      rw [List.mem_map] at hmem
      obtain ⟨e, he, rfl⟩ := hmem
      rw [List.mem_filter] at he
      have hbet := he.1
      unfold edgesBetween at hbet
      rw [List.mem_filter] at hbet
      exact ⟨e, hbet.1, rfl⟩
    · rw [if_neg hhe] at hmem
      simp at hmem
  have main : ∃ s t, ∃ e ∈ g.edges, r = render_record s t e := by
    rcases hr with h | h
    · obtain ⟨e, he, hre⟩ := key _ _ h
      exact ⟨_, _, e, he, hre⟩
    · obtain ⟨e, he, hre⟩ := key _ _ h
      exact ⟨_, _, e, he, hre⟩
  obtain ⟨s, t, e, he, rfl⟩ := main
  refine ⟨e, he, rfl, ?_⟩
  unfold render_equalities
  rw [List.length_map, List.length_zip]

/-- C10 witness: the truncated record produced from the mismatched edge
is in the output and satisfies the characterization. -/
theorem join_condition_zip_truncation_witness :
    witR10 ∈ get_join_relationships witG10 ["T1", "T2"] none ∧
    ∃ e ∈ witG10.edges,
      witR10.join_condition
        = String.intercalate " AND "
            (render_equalities witR10.from_table witR10.to_table e) ∧
      (render_equalities witR10.from_table witR10.to_table e).length
        = min e.source_columns.length e.target_columns.length :=
  ⟨by decide,
    join_condition_zip_truncation witG10 ["T1", "T2"] none witR10 (by decide)⟩

/-- C5: with no context supplied, no edge is filtered: for every unordered
pair of distinct requested tables, the number of emitted join records for
that pair equals the number of edges recorded between them in the two
directions combined. -/
theorem no_context_returns_all_edges (g : Graph) (tables : List String)
    (hnd : tables.Nodup) (a b : String) (hab : (a, b) ∈ pairsOf tables) :
    ((get_join_relationships g tables none).filter
        (fun r => (r.from_table == a && r.to_table == b)
          || (r.from_table == b && r.to_table == a))).length
      = (edgesBetween g a b).length + (edgesBetween g b a).length := by
  set p : JoinRecord → Bool := fun r =>
    (r.from_table == a && r.to_table == b)
      || (r.from_table == b && r.to_table == a) with hp
  set f : String × String → List JoinRecord := fun pr =>
    records_for_direction g none pr.1 pr.2
      ++ records_for_direction g none pr.2 pr.1 with hf
  have hswap : (b, a) ∉ pairsOf tables := pairsOf_no_swap hnd hab
  have hother : ∀ pr ∈ pairsOf tables, pr ≠ (a, b) → (f pr).filter p = [] := by
    intro pr hpr hne
    rw [hf]
    show (records_for_direction g none pr.1 pr.2
      ++ records_for_direction g none pr.2 pr.1).filter p = []
    rw [List.filter_append]
    have hL : (records_for_direction g none pr.1 pr.2).filter p = [] := by
      apply List.filter_eq_nil_iff.mpr
      intro r hr
      obtain ⟨h1, h2⟩ := records_from_table hr
      simp only [hp, h1, h2, Bool.or_eq_true, Bool.and_eq_true, beq_iff_eq]
      push_neg
      constructor
      · intro ha' hb'
        exact absurd (Prod.ext ha' hb') hne
      · intro ha' hb'
        have : pr = (b, a) := Prod.ext ha' hb'
        rw [this] at hpr
        exact absurd hpr hswap
    have hR : (records_for_direction g none pr.2 pr.1).filter p = [] := by
      apply List.filter_eq_nil_iff.mpr
      intro r hr
      obtain ⟨h1, h2⟩ := records_from_table hr
      simp only [hp, h1, h2, Bool.or_eq_true, Bool.and_eq_true, beq_iff_eq]
      push_neg
      constructor
      · intro ha' hb'
        have : pr = (b, a) := Prod.ext hb' ha'
        rw [this] at hpr
        exact absurd hpr hswap
      · intro ha' hb'
        exact absurd (Prod.ext hb' ha') hne
    rw [hL, hR]
    rfl
  have hmain : ((pairsOf tables).flatMap f).filter p = (f (a, b)).filter p :=
    filter_flatMap_eq_single p f (a, b) (pairsOf tables)
      (pairsOf_nodup hnd) hab hother
  have hall : (f (a, b)).filter p = f (a, b) := by
    apply List.filter_eq_self.mpr
    intro r hr
    rw [hf] at hr
    have hr' : r ∈ records_for_direction g none (a, b).1 (a, b).2
        ++ records_for_direction g none (a, b).2 (a, b).1 := hr
    rw [List.mem_append] at hr'
    rcases hr' with hr' | hr'
    · obtain ⟨h1, h2⟩ := records_from_table hr'
      simp [hp, h1, h2]
    · obtain ⟨h1, h2⟩ := records_from_table hr'
      simp [hp, h1, h2]
  have hjoin : get_join_relationships g tables none
      = (pairsOf tables).flatMap f := rfl
  rw [hjoin, hmain, hall, hf]
  show (records_for_direction g none a b
    ++ records_for_direction g none b a).length = _
  rw [List.length_append, records_for_direction_none, records_for_direction_none,
    List.length_map, List.length_map]

/-- C5 witness: instance on a graph with one edge per direction. -/
theorem no_context_returns_all_edges_witness :
    (["A", "B"] : List String).Nodup ∧
    ("A", "B") ∈ pairsOf ["A", "B"] ∧
    ((get_join_relationships witG5 ["A", "B"] none).filter
        (fun r => (r.from_table == "A" && r.to_table == "B")
          || (r.from_table == "B" && r.to_table == "A"))).length
      = (edgesBetween witG5 "A" "B").length
        + (edgesBetween witG5 "B" "A").length :=
  ⟨by decide, by decide,
    no_context_returns_all_edges witG5 ["A", "B"] (by decide) "A" "B" (by decide)⟩

/-- C6: for an edge whose two column lists both have length `n ≥ 1`, the
rendered condition is the `" AND "`-join of exactly the `n` positional
equalities, in declared column order, labeled with the edge's own
from/to tables. -/
theorem join_condition_renders_all_columns (start stop : String) (e : Edge)
    (n : Nat) (h1 : e.source_columns.length = n)
    (h2 : e.target_columns.length = n) (_hn : 1 ≤ n) :
    (render_record start stop e).join_condition
      = String.intercalate " AND " (render_equalities start stop e) ∧
    render_equalities start stop e
      = (List.range n).map (fun i =>
          start ++ "." ++ e.source_columns.getD i "" ++ " = "
            ++ stop ++ "." ++ e.target_columns.getD i "") := by
  refine ⟨rfl, ?_⟩
  apply List.ext_getElem
  · simp [render_equalities, List.length_zip, h1, h2]
  · intro i hi1 hi2
    have hlen : (render_equalities start stop e).length = n := by
      simp [render_equalities, List.length_zip, h1, h2]
    have hin : i < n := by
      rw [hlen] at hi1
      exact hi1
    simp only [render_equalities, List.getElem_map, List.getElem_zip,
      List.getElem_range]
    rw [List.getD_eq_getElem _ _ (show i < e.source_columns.length by omega),
        List.getD_eq_getElem _ _ (show i < e.target_columns.length by omega)]

/-- C1 counterexample: with requested context `"Country"`, the pair
`(A, B)` has a context-matching edge, but it is recorded in direction
`B → A`; the default edge recorded `A → B` is nevertheless emitted —
the fallback test does not count edges of the opposite direction. -/
theorem default_edge_cross_direction_counterexample :
    (get_join_relationships cexG1 ["A", "B"] (some "Country")).map
        JoinRecord.context = ["default", "Country data"] ∧
    (edgesBetween cexG1 "B" "A").map Edge.context = ["Country data"] ∧
    strContains (py_lower "Country data") (py_lower "Country") = true :=
  ⟨by decide, by decide, by decide⟩

/-- C1 amended: for a default-labeled edge recorded in direction
`s → t`, its record is emitted exactly when either its own lowercased
label contains the requested context, or no non-default edge recorded in
the **same declared direction** `s → t` has a context match; a context
match recorded in the opposite direction does not suppress it. -/
theorem default_edge_fallback_per_direction (g : Graph) (c : String)
    (hc : c ≠ "") (s t : String) (hst : s ≠ t) (e : Edge)
    (he : e ∈ edgesBetween g s t) (hdef : e.context = "default") :
    (render_record s t e ∈ get_join_relationships g [s, t] (some c) ↔
      (strContains (py_lower e.context) (py_lower c) = true ∨
        ∀ ed ∈ edgesBetween g s t, ed.context ≠ "default" →
          strContains (py_lower ed.context) (py_lower c) = false)) := by
  have hjoin : get_join_relationships g [s, t] (some c)
      = records_for_direction g (some c) s t
        ++ records_for_direction g (some c) t s := by
    simp [get_join_relationships, pairsOf]
  rw [hjoin, List.mem_append]
  have hnotsnd : render_record s t e ∉ records_for_direction g (some c) t s := by
    intro hmem
    have hft := (records_from_table hmem).1
    have : s = t := hft
    exact hst this
  constructor
  · intro hmem
    rcases hmem with hmem | hmem
    · rw [mem_records_for_direction he] at hmem
      obtain ⟨e', he', hinc, heq⟩ := hmem
      have hctx : e'.context = e.context := congrArg JoinRecord.context heq
      have hdef' : e'.context = "default" := by rw [hctx, hdef]
      rw [include_edge_default_iff hc hdef'] at hinc
      rw [hctx] at hinc
      exact hinc
    · exact absurd hmem hnotsnd
  · intro hcond
    left
    rw [mem_records_for_direction he]
    refine ⟨e, he, ?_, rfl⟩
    rw [include_edge_default_iff hc hdef]
    exact hcond

/-- C1 witness: on a graph whose only edge between the pair is the
default edge, the fallback keeps it (the right disjunct holds
vacuously). -/
theorem default_edge_fallback_per_direction_witness :
    ("Country" ≠ "") ∧ ("A" ≠ ("B" : String)) ∧
    simpleEdge "A" "B" ∈ edgesBetween witG1 "A" "B" ∧
    (simpleEdge "A" "B").context = "default" ∧
    (render_record "A" "B" (simpleEdge "A" "B")
        ∈ get_join_relationships witG1 ["A", "B"] (some "Country") ↔
      (strContains (py_lower (simpleEdge "A" "B").context)
          (py_lower "Country") = true ∨
        ∀ ed ∈ edgesBetween witG1 "A" "B", ed.context ≠ "default" →
          strContains (py_lower ed.context) (py_lower "Country") = false)) :=
  ⟨by decide, by decide, by decide, rfl,
    default_edge_fallback_per_direction witG1 "Country" (by decide) "A" "B"
      (by decide) (simpleEdge "A" "B") (by decide) rfl⟩

/-- C7: the country-level scenario — only the context-matching composite
edge is selected and it renders to exactly the expected condition
string. -/
theorem country_context_scenario :
    get_join_relationships gC7 ["Counterparty", "Concentration"]
        (some "Country")
      = [{ from_table := "Counterparty", to_table := "Concentration",
           join_condition := "Counterparty.Entity = Concentration.Entity AND Counterparty.Counterparty Country = Concentration.Concentration Value",
           join_type := "INNER", context := "For country level data",
           description := "Join Counterparty with Concentration" }] := by
  decide

/-- C8: whenever the cleaned response contains a `\x7b` at position `st`
and a last `\x7d` at position `k ≥ st`, `identify_tables` parses exactly
the substring between them (inclusive); a parser failure surfaces as an
error carrying the response text, with no retry. -/
theorem identify_tables_parse_spec {J : Type} (jparse : String → Option J)
    (raw : String) (st k : Nat)
    (hf : py_find '\x7b' (clean_response raw) = some st)
    (hr : py_rfind '\x7d' (clean_response raw) = some k)
    (hlt : st ≤ k) :
    identify_tables_parse jparse raw
      = (match jparse (py_slice (clean_response raw) st (k + 1)) with
         | some v => Except.ok v
         | none => Except.error (clean_response raw)) := by
  simp only [identify_tables_parse, hf, hr]
  rw [if_pos (by omega : st < k + 1)]

/-- C8 witness: a fenced JSON response, with an always-succeeding parser
standing in for `json.loads`. -/
theorem identify_tables_parse_spec_witness :
    py_find '\x7b' (clean_response rawW8) = some 0 ∧
    py_rfind '\x7d' (clean_response rawW8) = some 27 ∧
    (0 : Nat) ≤ 27 ∧
    identify_tables_parse (fun s => some s) rawW8
      = Except.ok (py_slice (clean_response rawW8) 0 28) :=
  ⟨by decide, by decide, by decide,
    identify_tables_parse_spec (fun s => some s) rawW8 0 27
      (by decide) (by decide) (by decide)⟩

/-- C6 witness: the two-column composite edge renders both equalities in
order. -/
theorem join_condition_renders_all_columns_witness :
    witE6.source_columns.length = 2 ∧ witE6.target_columns.length = 2 ∧
    ((render_record "Counterparty" "Trade" witE6).join_condition
        = String.intercalate " AND "
            (render_equalities "Counterparty" "Trade" witE6) ∧
      render_equalities "Counterparty" "Trade" witE6
        = (List.range 2).map (fun i =>
            "Counterparty" ++ "." ++ witE6.source_columns.getD i "" ++ " = "
              ++ "Trade" ++ "." ++ witE6.target_columns.getD i "")) :=
  ⟨by decide, by decide,
    join_condition_renders_all_columns "Counterparty" "Trade" witE6 2
      (by decide) (by decide) (by decide)⟩

end TextToSql
